import Mathlib

/-!
Verification of the matching core in `src/lib.rs` of `hl-exec-toy`:
a two-sided limit order book with `submit` (price-time matching) and
`depth` (price-level aggregation).  The Rust code is shallowly embedded:
`u64` fields become `Nat`, `i64` fields become `Int` (no arithmetic on
`id`/`ts` can overflow; the places where `i64` overflow matters are
modelled explicitly via `Book.sellKeyOverflow`), the `Vec`s become
`List`s, and the matching `while` loop becomes a fuel-indexed recursion
(`matchLoop`) together with a structurally recursive form (`matchList`)
proved equal to it.
-/

namespace HlExec

/-- `Side` in `src/lib.rs`: `{ Buy, Sell }`. -/
inductive Side
  | Buy
  | Sell
deriving DecidableEq, Repr

/-- `Order` in `src/lib.rs`: `id : u64`, `side : Side`, `price : i64`
(integer ticks), `qty : i64` (remaining quantity), `ts : u64`
(logical timestamp). -/
structure Order where
  id : Nat
  side : Side
  price : Int
  qty : Int
  ts : Nat
deriving DecidableEq, Repr

/-- A trade record `(taker_id, maker_id, filled_qty)` as returned by
`Book::submit`. -/
abbrev Trade := Nat × Nat × Int

/-- `Book` in `src/lib.rs`: two vectors of resting orders. -/
structure Book where
  bids : List Order
  asks : List Order
deriving DecidableEq, Repr

/-- `Book::new` is `Self::default()`: both sides empty. -/
def Book.new : Book := ⟨[], []⟩

/-- Ask-side priority: ascending lexicographic `(price, ts)`, the key of
`self.asks.sort_by_key(|x| (x.price, x.ts))`. -/
def askOrd (a b : Order) : Prop :=
  a.price < b.price ∨ (a.price = b.price ∧ a.ts ≤ b.ts)

/-- Bid-side priority: ascending lexicographic `(-price, ts)`, the key of
`self.bids.sort_by_key(|x| (-x.price, x.ts))`. -/
def bidOrd (a b : Order) : Prop :=
  -a.price < -b.price ∨ (-a.price = -b.price ∧ a.ts ≤ b.ts)

instance : DecidableRel askOrd := fun a b =>
  inferInstanceAs (Decidable (a.price < b.price ∨ (a.price = b.price ∧ a.ts ≤ b.ts)))

instance : DecidableRel bidOrd := fun a b =>
  inferInstanceAs (Decidable (-a.price < -b.price ∨ (-a.price = -b.price ∧ a.ts ≤ b.ts)))

instance : IsTotal Order askOrd where
  total a b := by
    unfold askOrd
    rcases lt_trichotomy a.price b.price with h | h | h
    · exact Or.inl (Or.inl h)
    · rcases Nat.le_total a.ts b.ts with h2 | h2
      · exact Or.inl (Or.inr ⟨h, h2⟩)
      · exact Or.inr (Or.inr ⟨h.symm, h2⟩)
    · exact Or.inr (Or.inl h)

instance : IsTrans Order askOrd where
  trans a b c hab hbc := by
    unfold askOrd at *
    rcases hab with h1 | ⟨h1, h1t⟩
    · rcases hbc with h2 | ⟨h2, _⟩
      · exact Or.inl (h1.trans h2)
      · exact Or.inl (h2 ▸ h1)
    · rcases hbc with h2 | ⟨h2, h2t⟩
      · exact Or.inl (h1 ▸ h2)
      · exact Or.inr ⟨h1.trans h2, h1t.trans h2t⟩

instance : IsTotal Order bidOrd where
  total a b := by
    unfold bidOrd
    rcases lt_trichotomy (-a.price) (-b.price) with h | h | h
    · exact Or.inl (Or.inl h)
    · rcases Nat.le_total a.ts b.ts with h2 | h2
      · exact Or.inl (Or.inr ⟨h, h2⟩)
      · exact Or.inr (Or.inr ⟨h.symm, h2⟩)
    · exact Or.inr (Or.inl h)

instance : IsTrans Order bidOrd where
  trans a b c hab hbc := by
    unfold bidOrd at *
    rcases hab with h1 | ⟨h1, h1t⟩
    · rcases hbc with h2 | ⟨h2, _⟩
      · exact Or.inl (h1.trans h2)
      · exact Or.inl (h2 ▸ h1)
    · rcases hbc with h2 | ⟨h2, h2t⟩
      · exact Or.inl (h1 ▸ h2)
      · exact Or.inr ⟨h1.trans h2, h1t.trans h2t⟩

/-- `self.asks.sort_by_key(|x| (x.price, x.ts))`.  Rust's `sort_by_key`
is a stable sort, and a stable sort by a total transitive key order has
a unique result, so it is modelled by the stable `List.insertionSort`. -/
def sortAsks (l : List Order) : List Order := List.insertionSort askOrd l

/-- `self.bids.sort_by_key(|x| (-x.price, x.ts))`, modelled like
`sortAsks`. -/
def sortBids (l : List Order) : List Order := List.insertionSort bidOrd l

/-- Marketability test of the Buy branch: `o.price >= self.asks[i].price`. -/
def buyCond (o maker : Order) : Bool := decide (o.price ≥ maker.price)

/-- Marketability test of the Sell branch: `o.price <= self.bids[i].price`. -/
def sellCond (o maker : Order) : Bool := decide (o.price ≤ maker.price)

/-- The matching `while` loop (`src/lib.rs` lines 32–38 and 45–51),
with the branch's marketability test passed in as `cond`.  The loop is
embedded with an explicit fuel argument; each iteration consumes one
unit of fuel while strictly decreasing `book.length - i`, so fuel
`book.length` (as used in `Book.submit`) always suffices, and the
fuel-exhausted return coincides with the loop's normal exit.  One
iteration: if `i` is in bounds, the taker's `qty` is positive and the
maker at `i` is marketable, then `fill = min(taker.qty, maker.qty)`, the
trade `(taker.id, maker.id, fill)` is recorded, the taker's `qty` drops
by `fill`, and the maker is removed if fully consumed, otherwise
decremented with `i` advancing. -/
def matchLoop (cond : Order → Order → Bool) :
    Nat → Order → List Order → Nat → List Trade → List Trade × Order × List Order
  | 0, o, book, _, acc => (acc, o, book)
  | fuel + 1, o, book, i, acc =>
    match book[i]? with
    | none => (acc, o, book)
    | some maker =>
      if 0 < o.qty ∧ cond o maker then
        let fill := min o.qty maker.qty
        let o2 : Order := { o with qty := o.qty - fill }
        if fill = maker.qty then
          matchLoop cond fuel o2 (book.eraseIdx i) i (acc ++ [(o.id, maker.id, fill)])
        else
          matchLoop cond fuel o2 (book.set i { maker with qty := maker.qty - fill })
            (i + 1) (acc ++ [(o.id, maker.id, fill)])
      else (acc, o, book)

/-- `Book::submit` (`src/lib.rs` lines 26–58): sort the opposite side by
its priority key in place, run the matching loop from index 0, and push
the taker onto its own side exactly when it retains positive quantity.
Returns the trades and the updated book. -/
def Book.submit (b : Book) (o : Order) : List Trade × Book :=
  match o.side with
  | Side.Buy =>
    let asks1 := sortAsks b.asks
    let r := matchLoop buyCond asks1.length o asks1 0 []
    ⟨r.1, ⟨if 0 < r.2.1.qty then b.bids ++ [r.2.1] else b.bids, r.2.2⟩⟩
  | Side.Sell =>
    let bids1 := sortBids b.bids
    let r := matchLoop sellCond bids1.length o bids1 0 []
    ⟨r.1, ⟨r.2.2, if 0 < r.2.1.qty then b.asks ++ [r.2.1] else b.asks⟩⟩

/-- One `BTreeMap` update `*map.entry(p).or_insert(0) += q` of
`Book::depth`, on the map represented as a price-ascending association
list. -/
def insertLevel (p q : Int) : List (Int × Int) → List (Int × Int)
  | [] => [(p, q)]
  | (p0, q0) :: rest =>
    if p < p0 then (p, q) :: (p0, q0) :: rest
    else if p = p0 then (p0, q0 + q) :: rest
    else (p0, q0) :: insertLevel p q rest

/-- One side's aggregation loop of `Book::depth`:
`for r in &side { *map.entry(r.price).or_insert(0) += r.qty; }`, with
the `BTreeMap`'s ascending iteration given by the sorted association
list. -/
def sideLevels (orders : List Order) : List (Int × Int) :=
  orders.foldl (fun m r => insertLevel r.price r.qty m) []

/-- `Book::depth` (`src/lib.rs` lines 60–69): aggregate each side's
resting quantity by price in a `BTreeMap`, then emit bid levels in
descending (`.iter().rev()`) and ask levels in ascending key order. -/
def Book.depth (b : Book) : List (Int × Int) × List (Int × Int) :=
  ((sideLevels b.bids).reverse, sideLevels b.asks)

/-- Book states reachable from `Book::new` by a sequence of `submit`
calls. -/
inductive Reachable : Book → Prop
  | empty : Reachable Book.new
  | step (b : Book) (o : Order) (h : Reachable b) : Reachable (b.submit o).2

/-- Structural form of `matchLoop` started at index 0: makers are
consumed from the head of the list.  After a partial fill
(`min o.qty maker.qty ≠ maker.qty` forces `fill = o.qty`) the taker's
quantity is zero and the loop stops; `matchLoop_eq_matchList` below
proves agreement with `matchLoop`. -/
def matchList (cond : Order → Order → Bool) :
    Order → List Order → List Trade × Order × List Order
  | o, [] => ([], o, [])
  | o, maker :: rest =>
    if 0 < o.qty ∧ cond o maker then
      let fill := min o.qty maker.qty
      if fill = maker.qty then
        let r := matchList cond { o with qty := o.qty - fill } rest
        ((o.id, maker.id, fill) :: r.1, r.2)
      else
        ([(o.id, maker.id, fill)], { o with qty := o.qty - fill },
          { maker with qty := maker.qty - fill } :: rest)
    else ([], o, maker :: rest)

/-- `i64::MIN`. -/
def i64Min : Int := -(2 ^ 63)

/-- `i64::MAX`. -/
def i64Max : Int := 2 ^ 63 - 1

/-- The Sell branch's sort key `(-x.price, x.ts)` negates each resting
bid price in `i64` arithmetic; for an in-range price the negation
leaves the `i64` range exactly when the price is `i64::MIN`.  This
predicate marks book states in which a Sell-side `submit` triggers that
overflow (a panic in a checked build). -/
def Book.sellKeyOverflow (b : Book) : Bool :=
  b.bids.any (fun r => decide (r.price = i64Min))

/-- Total resting quantity of `orders` at exactly price `p`. -/
def sideQtyAt (orders : List Order) (p : Int) : Int :=
  ((orders.filter (fun r => r.price = p)).map (fun r => r.qty)).sum

/-! ### The fuel-indexed loop agrees with its structural form -/

theorem matchLoop_nonpos (cond : Order → Order → Bool) (fuel : Nat) (o : Order)
    (book : List Order) (i : Nat) (acc : List Trade) (h : o.qty ≤ 0) :
    matchLoop cond fuel o book i acc = (acc, o, book) := by
  cases fuel with
  | zero => rfl
  | succ f =>
    unfold matchLoop
    cases hb : book[i]? with
    | none => rfl
    | some maker =>
      simp only []
      rw [if_neg]
      intro hc
      exact absurd hc.1 (not_lt.mpr h)

theorem min_eq_of_ne_right {a b : Int} (h : min a b ≠ b) : min a b = a := by
  omega

theorem matchLoop_eq_matchList (cond : Order → Order → Bool) :
    ∀ (l : List Order) (o : Order) (acc : List Trade) (fuel : Nat),
      l.length ≤ fuel →
      matchLoop cond fuel o l 0 acc =
        (acc ++ (matchList cond o l).1, (matchList cond o l).2) := by
  intro l
  induction l with
  | nil =>
    intro o acc fuel _
    cases fuel with
    | zero => simp [matchLoop, matchList]
    | succ f => simp [matchLoop, matchList]
  | cons maker rest ih =>
    intro o acc fuel hfuel
    cases fuel with
    | zero => simp at hfuel
    | succ f =>
      have hrest : rest.length ≤ f := by
        simpa using Nat.lt_succ_iff.mp (Nat.lt_of_lt_of_le (Nat.lt_succ_self _) hfuel)
      unfold matchLoop matchList
      simp only [List.getElem?_cons_zero]
      by_cases hc : 0 < o.qty ∧ cond o maker
      · rw [if_pos hc, if_pos hc]
        by_cases hfill : min o.qty maker.qty = maker.qty
        · rw [if_pos hfill, if_pos hfill]
          rw [List.eraseIdx_cons_zero]
          rw [ih _ _ f hrest]
          simp
        · rw [if_neg hfill, if_neg hfill]
          rw [List.set_cons_zero]
          have hq0 : ({ o with qty := o.qty - min o.qty maker.qty } : Order).qty ≤ 0 := by
            have := min_eq_of_ne_right hfill
            simp [this]
          rw [matchLoop_nonpos cond f _ _ _ _ hq0]
      · rw [if_neg hc, if_neg hc]
        simp

/-- `submit` on a Buy taker, expressed through `matchList`. -/
theorem submit_buy_eq (b : Book) (o : Order) (h : o.side = Side.Buy) :
    b.submit o =
      ((matchList buyCond o (sortAsks b.asks)).1,
        ⟨if 0 < (matchList buyCond o (sortAsks b.asks)).2.1.qty
            then b.bids ++ [(matchList buyCond o (sortAsks b.asks)).2.1] else b.bids,
          (matchList buyCond o (sortAsks b.asks)).2.2⟩) := by
  have hb := matchLoop_eq_matchList buyCond (sortAsks b.asks) o []
    (sortAsks b.asks).length le_rfl
  unfold Book.submit
  rw [h]
  simp only [hb, List.nil_append]

/-- `submit` on a Sell taker, expressed through `matchList`. -/
theorem submit_sell_eq (b : Book) (o : Order) (h : o.side = Side.Sell) :
    b.submit o =
      ((matchList sellCond o (sortBids b.bids)).1,
        ⟨(matchList sellCond o (sortBids b.bids)).2.2,
          if 0 < (matchList sellCond o (sortBids b.bids)).2.1.qty
            then b.asks ++ [(matchList sellCond o (sortBids b.bids)).2.1] else b.asks⟩) := by
  have hb := matchLoop_eq_matchList sellCond (sortBids b.bids) o []
    (sortBids b.bids).length le_rfl
  unfold Book.submit
  rw [h]
  simp only [hb, List.nil_append]

/-! ### Behaviour of the structural matching loop -/

theorem matchList_nonpos (cond : Order → Order → Bool) (o : Order) (l : List Order)
    (h : o.qty ≤ 0) : matchList cond o l = ([], o, l) := by
  cases l with
  | nil => rfl
  | cons maker rest =>
    unfold matchList
    rw [if_neg]
    intro hc
    exact absurd hc.1 (not_lt.mpr h)

/-- The taker leaves the loop with all fields intact except `qty`,
which drops by the total filled quantity. -/
theorem matchList_taker (cond : Order → Order → Bool) :
    ∀ (o : Order) (l : List Order),
      (matchList cond o l).2.1 =
        { o with qty := o.qty - ((matchList cond o l).1.map (fun t => t.2.2)).sum }
  | o, [] => by simp [matchList]
  | o, maker :: rest => by
    unfold matchList
    by_cases hc : 0 < o.qty ∧ cond o maker
    · rw [if_pos hc]
      by_cases hfill : min o.qty maker.qty = maker.qty
      · rw [if_pos hfill]
        have ih := matchList_taker cond { o with qty := o.qty - min o.qty maker.qty } rest
        simp only [ih]
        simp [Order.mk.injEq, sub_sub]
      · rw [if_neg hfill]
        simp
    · rw [if_neg hc]
      simp

/-- A nonnegative taker quantity stays nonnegative through the loop. -/
theorem matchList_qty_nonneg (cond : Order → Order → Bool) :
    ∀ (o : Order) (l : List Order), 0 ≤ o.qty → 0 ≤ (matchList cond o l).2.1.qty
  | o, [], h => h
  | o, maker :: rest, h => by
    unfold matchList
    by_cases hc : 0 < o.qty ∧ cond o maker
    · rw [if_pos hc]
      by_cases hfill : min o.qty maker.qty = maker.qty
      · rw [if_pos hfill]
        exact matchList_qty_nonneg cond _ rest (by simp)
      · rw [if_neg hfill]
        have := min_eq_of_ne_right hfill
        simp [this]
    · rw [if_neg hc]
      exact h

/-- When every maker in the list has positive quantity, every emitted
trade has positive filled quantity. -/
theorem matchList_fills_pos (cond : Order → Order → Bool) :
    ∀ (o : Order) (l : List Order), (∀ m ∈ l, 0 < m.qty) →
      ∀ t ∈ (matchList cond o l).1, 0 < t.2.2
  | o, [], _, t, ht => by simp [matchList] at ht
  | o, maker :: rest, hpos, t, ht => by
    unfold matchList at ht
    by_cases hc : 0 < o.qty ∧ cond o maker
    · rw [if_pos hc] at ht
      have hmpos : 0 < maker.qty := hpos maker (by simp)
      have hfillpos : 0 < min o.qty maker.qty := lt_min hc.1 hmpos
      by_cases hfill : min o.qty maker.qty = maker.qty
      · rw [if_pos hfill] at ht
        simp only [List.mem_cons] at ht
        rcases ht with ht | ht
        · subst ht
          exact hfillpos
        · exact matchList_fills_pos cond _ rest (fun m hm => hpos m (by simp [hm])) t ht
      · rw [if_neg hfill] at ht
        simp only [List.mem_singleton] at ht
        subst ht
        exact hfillpos
    · rw [if_neg hc] at ht
      simp at ht

/-- When every maker has positive quantity, so does every order left on
the matched side: a fully consumed maker is removed, a partially
consumed one keeps a positive remainder. -/
theorem matchList_book_pos (cond : Order → Order → Bool) :
    ∀ (o : Order) (l : List Order), (∀ m ∈ l, 0 < m.qty) →
      ∀ m ∈ (matchList cond o l).2.2, 0 < m.qty
  | o, [], _, m, hm => by simp [matchList] at hm
  | o, maker :: rest, hpos, m, hm => by
    unfold matchList at hm
    by_cases hc : 0 < o.qty ∧ cond o maker
    · rw [if_pos hc] at hm
      by_cases hfill : min o.qty maker.qty = maker.qty
      · rw [if_pos hfill] at hm
        exact matchList_book_pos cond _ rest (fun x hx => hpos x (by simp [hx])) m hm
      · rw [if_neg hfill] at hm
        simp only [List.mem_cons] at hm
        rcases hm with hm | hm
        · subst hm
          have hmq : 0 < maker.qty := hpos maker (by simp)
          simp
          omega
        · exact hpos m (by simp [hm])
    · rw [if_neg hc] at hm
      exact hpos m hm

/-- Every order left on the matched side descends from a maker of the
input list: same `id`, `side`, `price`, `ts`. -/
theorem matchList_book_src (cond : Order → Order → Bool) :
    ∀ (o : Order) (l : List Order), ∀ m2 ∈ (matchList cond o l).2.2,
      ∃ m ∈ l, m2.id = m.id ∧ m2.side = m.side ∧ m2.price = m.price ∧ m2.ts = m.ts
  | o, [], m2, hm => by simp [matchList] at hm
  | o, maker :: rest, m2, hm => by
    unfold matchList at hm
    by_cases hc : 0 < o.qty ∧ cond o maker
    · rw [if_pos hc] at hm
      by_cases hfill : min o.qty maker.qty = maker.qty
      · rw [if_pos hfill] at hm
        obtain ⟨m, hmem, hfields⟩ := matchList_book_src cond _ rest m2 hm
        exact ⟨m, by simp [hmem], hfields⟩
      · rw [if_neg hfill] at hm
        simp only [List.mem_cons] at hm
        rcases hm with hm | hm
        · exact ⟨maker, by simp, by simp [hm]⟩
        · exact ⟨m2, by simp [hm], rfl, rfl, rfl, rfl⟩
    · rw [if_neg hc] at hm
      exact ⟨m2, hm, rfl, rfl, rfl, rfl⟩

/-- The maker ids of the emitted trades form a prefix of the ids of the
priority-ordered opposite side: makers are consumed strictly in that
order. -/
theorem matchList_consumed_in_order (cond : Order → Order → Bool) :
    ∀ (o : Order) (l : List Order),
      ((matchList cond o l).1.map (fun t => t.2.1)) <+: (l.map Order.id)
  | o, [] => by simp [matchList]
  | o, maker :: rest => by
    unfold matchList
    by_cases hc : 0 < o.qty ∧ cond o maker
    · rw [if_pos hc]
      by_cases hfill : min o.qty maker.qty = maker.qty
      · rw [if_pos hfill]
        simp only [List.map_cons]
        obtain ⟨t, ht⟩ := matchList_consumed_in_order cond { o with qty := o.qty - min o.qty maker.qty } rest
        exact ⟨t, by rw [List.cons_append, ht]⟩
      · rw [if_neg hfill]
        simp
    · rw [if_neg hc]
      simp

/-- The total filled quantity never exceeds `max o.qty 0`: a
positive-quantity taker is never overfilled, and a nonpositive-quantity
taker produces no trades at all. -/
theorem matchList_sum_fills_le (cond : Order → Order → Bool) (o : Order) (l : List Order) :
    ((matchList cond o l).1.map (fun t => t.2.2)).sum ≤ max o.qty 0 := by
  by_cases h : o.qty ≤ 0
  · rw [matchList_nonpos cond o l h]
    simp
  · have h0 : 0 ≤ o.qty := le_of_lt (lt_of_not_le h)
    have h1 := matchList_qty_nonneg cond o l h0
    rw [matchList_taker cond o l] at h1
    simp at h1
    omega

/-- If the taker leaves the loop with positive quantity, no order left
on the matched side is marketable against it.  `P` is the priority
order of the side and is required to refine marketability; `hqty` says
the marketability test ignores the taker's quantity. -/
theorem matchList_leftover (cond : Order → Order → Bool)
    (hqty : ∀ (x : Order) (q : Int) (m : Order), cond { x with qty := q } m = cond x m)
    (P : Order → Order → Prop)
    (hP : ∀ (o a b : Order), P a b → cond o b = true → cond o a = true) :
    ∀ (o : Order) (l : List Order), l.Pairwise P →
      0 < (matchList cond o l).2.1.qty →
      ∀ m ∈ (matchList cond o l).2.2, cond o m = false
  | o, [], _, _, m, hm => by simp [matchList] at hm
  | o, maker :: rest, hpair, hq, m, hm => by
    unfold matchList at hq hm
    by_cases hc : 0 < o.qty ∧ cond o maker
    · rw [if_pos hc] at hq hm
      by_cases hfill : min o.qty maker.qty = maker.qty
      · rw [if_pos hfill] at hq hm
        have ih := matchList_leftover cond hqty P hP
          { o with qty := o.qty - min o.qty maker.qty } rest hpair.of_cons hq m hm
        rw [hqty] at ih
        exact ih
      · rw [if_neg hfill] at hq hm
        have := min_eq_of_ne_right hfill
        simp [this] at hq
    · rw [if_neg hc] at hq hm
      have hcm : cond o maker = false := by
        cases h : cond o maker
        · rfl
        · exact absurd ⟨hq, h⟩ hc
      simp only [List.mem_cons] at hm
      rcases hm with hm | hm
      · exact hm ▸ hcm
      · cases h : cond o m
        · rfl
        · exact absurd (hP o maker m ((List.pairwise_cons.mp hpair).1 m hm) h)
            (by simp [hcm])

theorem buyCond_qty (x : Order) (q : Int) (m : Order) :
    buyCond { x with qty := q } m = buyCond x m := rfl

theorem sellCond_qty (x : Order) (q : Int) (m : Order) :
    sellCond { x with qty := q } m = sellCond x m := rfl

theorem askOrd_price_le {a b : Order} (h : askOrd a b) : a.price ≤ b.price := by
  rcases h with h | ⟨h, _⟩
  · exact le_of_lt h
  · exact le_of_eq h

theorem bidOrd_price_ge {a b : Order} (h : bidOrd a b) : b.price ≤ a.price := by
  rcases h with h | ⟨h, _⟩
  · omega
  · omega

/-- A Buy taker that rests afterwards is strictly below every remaining
ask price. -/
theorem matchList_buy_leftover (o : Order) (l : List Order) (hl : l.Pairwise askOrd)
    (hq : 0 < (matchList buyCond o l).2.1.qty) :
    ∀ m ∈ (matchList buyCond o l).2.2, o.price < m.price := by
  intro m hm
  have hfalse := matchList_leftover buyCond buyCond_qty askOrd
    (fun o a b hab hcb => by
      have h1 : o.price ≥ b.price := of_decide_eq_true hcb
      exact decide_eq_true (le_trans (askOrd_price_le hab) h1))
    o l hl hq m hm
  have : ¬o.price ≥ m.price := of_decide_eq_false hfalse
  omega

/-- A Sell taker that rests afterwards is strictly above every remaining
bid price. -/
theorem matchList_sell_leftover (o : Order) (l : List Order) (hl : l.Pairwise bidOrd)
    (hq : 0 < (matchList sellCond o l).2.1.qty) :
    ∀ m ∈ (matchList sellCond o l).2.2, m.price < o.price := by
  intro m hm
  have hfalse := matchList_leftover sellCond sellCond_qty bidOrd
    (fun o a b hab hcb => by
      have h1 : o.price ≤ b.price := of_decide_eq_true hcb
      exact decide_eq_true (le_trans h1 (bidOrd_price_ge hab)))
    o l hl hq m hm
  have : ¬o.price ≤ m.price := of_decide_eq_false hfalse
  omega

/-! ### Sorting facts -/

theorem sortAsks_perm (l : List Order) : List.Perm (sortAsks l) l :=
  List.perm_insertionSort askOrd l

theorem sortBids_perm (l : List Order) : List.Perm (sortBids l) l :=
  List.perm_insertionSort bidOrd l

theorem sortAsks_sorted (l : List Order) : (sortAsks l).Pairwise askOrd :=
  List.sorted_insertionSort askOrd l

theorem sortBids_sorted (l : List Order) : (sortBids l).Pairwise bidOrd :=
  List.sorted_insertionSort bidOrd l

/-! ### Invariants preserved by `submit` -/

/-- No resting bid price is `≥` any resting ask price. -/
def Uncrossed (b : Book) : Prop := ∀ x ∈ b.bids, ∀ y ∈ b.asks, x.price < y.price

/-- Every resting order has positive quantity. -/
def AllPos (b : Book) : Prop := (∀ r ∈ b.bids, 0 < r.qty) ∧ (∀ r ∈ b.asks, 0 < r.qty)

/-- Every resting bid is a Buy and every resting ask a Sell. -/
def SidesOk (b : Book) : Prop :=
  (∀ r ∈ b.bids, r.side = Side.Buy) ∧ (∀ r ∈ b.asks, r.side = Side.Sell)

theorem submit_preserves_allPos (b : Book) (o : Order) (h : AllPos b) :
    AllPos (b.submit o).2 := by
  cases hside : o.side
  case Buy =>
    rw [submit_buy_eq b o hside]
    constructor
    · intro r hr
      by_cases hq : 0 < (matchList buyCond o (sortAsks b.asks)).2.1.qty
      · rw [if_pos hq] at hr
        rcases List.mem_append.mp hr with hr | hr
        · exact h.1 r hr
        · rw [List.mem_singleton.mp hr]
          exact hq
      · rw [if_neg hq] at hr
        exact h.1 r hr
    · exact matchList_book_pos buyCond o (sortAsks b.asks)
        (fun m hm => h.2 m ((sortAsks_perm b.asks).mem_iff.mp hm))
  case Sell =>
    rw [submit_sell_eq b o hside]
    constructor
    · exact matchList_book_pos sellCond o (sortBids b.bids)
        (fun m hm => h.1 m ((sortBids_perm b.bids).mem_iff.mp hm))
    · intro r hr
      by_cases hq : 0 < (matchList sellCond o (sortBids b.bids)).2.1.qty
      · rw [if_pos hq] at hr
        rcases List.mem_append.mp hr with hr | hr
        · exact h.2 r hr
        · rw [List.mem_singleton.mp hr]
          exact hq
      · rw [if_neg hq] at hr
        exact h.2 r hr

theorem submit_preserves_uncrossed (b : Book) (o : Order) (h : Uncrossed b) :
    Uncrossed (b.submit o).2 := by
  cases hside : o.side
  case Buy =>
    rw [submit_buy_eq b o hside]
    intro x hx y hy
    obtain ⟨a, ha, _, _, hap, _⟩ := matchList_book_src buyCond o (sortAsks b.asks) y hy
    have ha2 : a ∈ b.asks := (sortAsks_perm b.asks).mem_iff.mp ha
    by_cases hq : 0 < (matchList buyCond o (sortAsks b.asks)).2.1.qty
    · rw [if_pos hq] at hx
      rcases List.mem_append.mp hx with hx | hx
      · exact hap ▸ h x hx a ha2
      · rw [List.mem_singleton.mp hx, matchList_taker buyCond o (sortAsks b.asks)]
        exact matchList_buy_leftover o (sortAsks b.asks) (sortAsks_sorted b.asks) hq y hy
    · rw [if_neg hq] at hx
      exact hap ▸ h x hx a ha2
  case Sell =>
    rw [submit_sell_eq b o hside]
    intro x hx y hy
    obtain ⟨a, ha, _, _, hap, _⟩ := matchList_book_src sellCond o (sortBids b.bids) x hx
    have ha2 : a ∈ b.bids := (sortBids_perm b.bids).mem_iff.mp ha
    by_cases hq : 0 < (matchList sellCond o (sortBids b.bids)).2.1.qty
    · rw [if_pos hq] at hy
      rcases List.mem_append.mp hy with hy | hy
      · exact hap ▸ h a ha2 y hy
      · rw [List.mem_singleton.mp hy, matchList_taker sellCond o (sortBids b.bids)]
        exact matchList_sell_leftover o (sortBids b.bids) (sortBids_sorted b.bids) hq x hx
    · rw [if_neg hq] at hy
      exact hap ▸ h a ha2 y hy

theorem submit_preserves_sides (b : Book) (o : Order) (h : SidesOk b) :
    SidesOk (b.submit o).2 := by
  cases hside : o.side
  case Buy =>
    rw [submit_buy_eq b o hside]
    constructor
    · intro r hr
      by_cases hq : 0 < (matchList buyCond o (sortAsks b.asks)).2.1.qty
      · rw [if_pos hq] at hr
        rcases List.mem_append.mp hr with hr | hr
        · exact h.1 r hr
        · rw [List.mem_singleton.mp hr, matchList_taker buyCond o (sortAsks b.asks)]
          exact hside
      · rw [if_neg hq] at hr
        exact h.1 r hr
    · intro r hr
      obtain ⟨a, ha, _, hside2, _, _⟩ := matchList_book_src buyCond o (sortAsks b.asks) r hr
      exact hside2 ▸ h.2 a ((sortAsks_perm b.asks).mem_iff.mp ha)
  case Sell =>
    rw [submit_sell_eq b o hside]
    constructor
    · intro r hr
      obtain ⟨a, ha, _, hside2, _, _⟩ := matchList_book_src sellCond o (sortBids b.bids) r hr
      exact hside2 ▸ h.1 a ((sortBids_perm b.bids).mem_iff.mp ha)
    · intro r hr
      by_cases hq : 0 < (matchList sellCond o (sortBids b.bids)).2.1.qty
      · rw [if_pos hq] at hr
        rcases List.mem_append.mp hr with hr | hr
        · exact h.2 r hr
        · rw [List.mem_singleton.mp hr, matchList_taker sellCond o (sortBids b.bids)]
          exact hside
      · rw [if_neg hq] at hr
        exact h.2 r hr

/-- The three structural invariants hold in every reachable state. -/
theorem reachable_inv (b : Book) (h : Reachable b) :
    AllPos b ∧ Uncrossed b ∧ SidesOk b := by
  induction h with
  | empty =>
    refine ⟨⟨?_, ?_⟩, ?_, ?_, ?_⟩ <;> intro r hr <;> simp [Book.new] at hr
  | step b o _ ih =>
    exact ⟨submit_preserves_allPos b o ih.1, submit_preserves_uncrossed b o ih.2.1,
      submit_preserves_sides b o ih.2.2⟩

/-! ### Depth aggregation -/

/-- The quantity stored for key `p` in an association list (summing
duplicates, which never arise in a sorted list). -/
def levelVal (lvls : List (Int × Int)) (p : Int) : Int :=
  ((lvls.filter (fun e => e.1 = p)).map (fun e => e.2)).sum

theorem sideQtyAt_cons (r : Order) (os : List Order) (p : Int) :
    sideQtyAt (r :: os) p = (if r.price = p then r.qty else 0) + sideQtyAt os p := by
  unfold sideQtyAt
  by_cases h : r.price = p
  · simp [h]
  · simp [h]

theorem levelVal_nil (p : Int) : levelVal [] p = 0 := rfl

theorem levelVal_cons (a b : Int) (rest : List (Int × Int)) (p : Int) :
    levelVal ((a, b) :: rest) p = (if a = p then b else 0) + levelVal rest p := by
  unfold levelVal
  by_cases h : a = p
  · simp [List.filter_cons, h]
  · simp [List.filter_cons, h]

theorem insertLevel_levelVal (p q : Int) :
    ∀ (lvls : List (Int × Int)) (p2 : Int),
      levelVal (insertLevel p q lvls) p2 = levelVal lvls p2 + (if p2 = p then q else 0)
  | [], p2 => by
    show levelVal [(p, q)] p2 = levelVal [] p2 + (if p2 = p then q else 0)
    rw [levelVal_cons, levelVal_nil]
    split_ifs <;> omega
  | (p0, q0) :: rest, p2 => by
    unfold insertLevel
    by_cases h1 : p < p0
    · rw [if_pos h1, levelVal_cons, levelVal_cons]
      split_ifs <;> omega
    · rw [if_neg h1]
      by_cases h2 : p = p0
      · rw [if_pos h2, levelVal_cons, levelVal_cons]
        split_ifs <;> omega
      · rw [if_neg h2, levelVal_cons, levelVal_cons, insertLevel_levelVal p q rest p2]
        split_ifs <;> omega

theorem insertLevel_sum (p q : Int) :
    ∀ lvls : List (Int × Int),
      ((insertLevel p q lvls).map (fun e => e.2)).sum = q + (lvls.map (fun e => e.2)).sum
  | [] => by simp [insertLevel]
  | (p0, q0) :: rest => by
    unfold insertLevel
    by_cases h1 : p < p0
    · rw [if_pos h1]
      simp
    · rw [if_neg h1]
      by_cases h2 : p = p0
      · rw [if_pos h2]
        simp
        omega
      · rw [if_neg h2]
        simp [insertLevel_sum p q rest]
        omega

theorem insertLevel_keys (p q : Int) :
    ∀ (lvls : List (Int × Int)) (p2 : Int),
      p2 ∈ (insertLevel p q lvls).map Prod.fst ↔ p2 = p ∨ p2 ∈ lvls.map Prod.fst
  | [], p2 => by simp [insertLevel]
  | (p0, q0) :: rest, p2 => by
    unfold insertLevel
    by_cases h1 : p < p0
    · rw [if_pos h1]
      simp
    · rw [if_neg h1]
      by_cases h2 : p = p0
      · rw [if_pos h2]
        simp [h2]
      · rw [if_neg h2]
        simp only [List.map_cons, List.mem_cons]
        rw [insertLevel_keys p q rest p2]
        tauto

theorem insertLevel_pairwise (p q : Int) :
    ∀ lvls : List (Int × Int), lvls.Pairwise (fun x y => x.1 < y.1) →
      (insertLevel p q lvls).Pairwise (fun x y => x.1 < y.1)
  | [], _ => by simp [insertLevel]
  | (p0, q0) :: rest, hp => by
    unfold insertLevel
    rcases List.pairwise_cons.mp hp with ⟨hhead, htail⟩
    by_cases h1 : p < p0
    · rw [if_pos h1]
      refine List.pairwise_cons.mpr ⟨?_, hp⟩
      intro y hy
      rcases List.mem_cons.mp hy with hy | hy
      · simp [hy, h1]
      · exact lt_trans h1 (hhead y hy)
    · rw [if_neg h1]
      by_cases h2 : p = p0
      · rw [if_pos h2]
        exact List.pairwise_cons.mpr ⟨hhead, htail⟩
      · rw [if_neg h2]
        refine List.pairwise_cons.mpr ⟨?_, insertLevel_pairwise p q rest htail⟩
        intro y hy
        have hy1 : y.1 = p ∨ y.1 ∈ rest.map Prod.fst :=
          (insertLevel_keys p q rest y.1).mp (List.mem_map_of_mem Prod.fst hy)
        rcases hy1 with hy1 | hy1
        · have : p0 < p := by omega
          simpa [hy1] using this
        · obtain ⟨e, he, he1⟩ := List.mem_map.mp hy1
          exact he1 ▸ hhead e he

theorem foldl_insertLevel_levelVal :
    ∀ (orders : List Order) (acc : List (Int × Int)) (p : Int),
      levelVal (orders.foldl (fun m r => insertLevel r.price r.qty m) acc) p =
        levelVal acc p + sideQtyAt orders p
  | [], acc, p => by simp [sideQtyAt, levelVal]
  | r :: os, acc, p => by
    simp only [List.foldl_cons]
    rw [foldl_insertLevel_levelVal os _ p, insertLevel_levelVal, sideQtyAt_cons]
    split_ifs <;> omega

theorem foldl_insertLevel_keys :
    ∀ (orders : List Order) (acc : List (Int × Int)) (p : Int),
      p ∈ (orders.foldl (fun m r => insertLevel r.price r.qty m) acc).map Prod.fst ↔
        p ∈ acc.map Prod.fst ∨ p ∈ orders.map Order.price
  | [], acc, p => by simp
  | r :: os, acc, p => by
    simp only [List.foldl_cons, List.map_cons, List.mem_cons]
    rw [foldl_insertLevel_keys os _ p, insertLevel_keys]
    tauto

theorem foldl_insertLevel_sum :
    ∀ (orders : List Order) (acc : List (Int × Int)),
      ((orders.foldl (fun m r => insertLevel r.price r.qty m) acc).map (fun e => e.2)).sum =
        (acc.map (fun e => e.2)).sum + (orders.map (fun r => r.qty)).sum
  | [], acc => by simp
  | r :: os, acc => by
    simp only [List.foldl_cons, List.map_cons, List.sum_cons]
    rw [foldl_insertLevel_sum os _, insertLevel_sum]
    omega

theorem foldl_insertLevel_pairwise :
    ∀ (orders : List Order) (acc : List (Int × Int)),
      acc.Pairwise (fun x y => x.1 < y.1) →
      (orders.foldl (fun m r => insertLevel r.price r.qty m) acc).Pairwise
        (fun x y => x.1 < y.1)
  | [], acc, h => h
  | r :: os, acc, h => by
    simp only [List.foldl_cons]
    exact foldl_insertLevel_pairwise os _ (insertLevel_pairwise r.price r.qty acc h)

theorem sideLevels_pairwise (orders : List Order) :
    (sideLevels orders).Pairwise (fun x y => x.1 < y.1) :=
  foldl_insertLevel_pairwise orders [] (List.Pairwise.nil)

theorem sideLevels_keys (orders : List Order) (p : Int) :
    p ∈ (sideLevels orders).map Prod.fst ↔ p ∈ orders.map Order.price := by
  unfold sideLevels
  rw [foldl_insertLevel_keys]
  simp

theorem sideLevels_sum (orders : List Order) :
    ((sideLevels orders).map (fun e => e.2)).sum = (orders.map (fun r => r.qty)).sum := by
  unfold sideLevels
  rw [foldl_insertLevel_sum]
  simp

theorem levelVal_eq_zero (lvls : List (Int × Int)) (p : Int) (h : ∀ e ∈ lvls, ¬e.1 = p) :
    levelVal lvls p = 0 := by
  unfold levelVal
  have : lvls.filter (fun e => e.1 = p) = [] := by
    rw [List.filter_eq_nil_iff]
    intro e he
    simpa using h e he
  rw [this]
  rfl

theorem levelVal_eq_of_mem :
    ∀ lvls : List (Int × Int), lvls.Pairwise (fun x y => x.1 < y.1) →
      ∀ p q : Int, (p, q) ∈ lvls → levelVal lvls p = q
  | [], _, p, q, h => by simp at h
  | (p0, q0) :: rest, hp, p, q, h => by
    rcases List.pairwise_cons.mp hp with ⟨hhead, htail⟩
    rcases List.mem_cons.mp h with h | h
    · injection h with hp1 hq1
      subst hp1
      subst hq1
      have hzero : levelVal rest p = 0 := by
        apply levelVal_eq_zero
        intro e he
        have := hhead e he
        simp at this
        omega
      rw [levelVal_cons, hzero, if_pos rfl]
      omega
    · have hlt : p0 < p := by simpa using hhead (p, q) h
      have hne : ¬(p0 = p) := by omega
      have ih := levelVal_eq_of_mem rest htail p q h
      rw [levelVal_cons, if_neg hne, ih]
      omega

/-- The quantity stored with a price level equals the summed resting
quantity at that price. -/
theorem sideLevels_val (orders : List Order) (p qv : Int) (h : (p, qv) ∈ sideLevels orders) :
    qv = sideQtyAt orders p := by
  have h1 := levelVal_eq_of_mem (sideLevels orders) (sideLevels_pairwise orders) p qv h
  have h2 := foldl_insertLevel_levelVal orders [] p
  unfold sideLevels at h1
  rw [h1, levelVal_nil] at h2
  omega

theorem sideQtyAt_pos (orders : List Order) (hpos : ∀ r ∈ orders, 0 < r.qty) (p : Int)
    (hex : ∃ r ∈ orders, r.price = p) : 0 < sideQtyAt orders p := by
  obtain ⟨r, hr, hrp⟩ := hex
  unfold sideQtyAt
  apply List.sum_pos
  · intro x hx
    obtain ⟨e, he, hee⟩ := List.mem_map.mp hx
    exact hee ▸ hpos e (List.mem_of_mem_filter he)
  · intro hnil
    have hmem : r ∈ orders.filter (fun r => r.price = p) :=
      List.mem_filter.mpr ⟨hr, by simpa using hrp⟩
    rw [List.map_eq_nil_iff.mp hnil] at hmem
    simp at hmem

/-! ### Claims -/

/-- C1: for every book state reachable from the empty book by `submit`
calls, after any `submit` call returns there is no resting bid order
whose price is `≥` the price of any resting ask order. -/
theorem claim_no_residual_cross (b : Book) (h : Reachable b) :
    ∀ x ∈ b.bids, ∀ y ∈ b.asks, x.price < y.price :=
  (reachable_inv b h).2.1

theorem claim_no_residual_cross_witness : (100 : Int) < 101 :=
  claim_no_residual_cross
    ((Book.new.submit ⟨1, Side.Buy, 100, 5, 1⟩).2.submit ⟨2, Side.Sell, 101, 5, 2⟩).2
    (Reachable.step _ _ (Reachable.step _ _ Reachable.empty))
    ⟨1, Side.Buy, 100, 5, 1⟩ (by decide) ⟨2, Side.Sell, 101, 5, 2⟩ (by decide)

/-- C2: the trades of a `submit` call consume makers in price-time
priority order: the maker ids of the trade list form a prefix of the
opposite side sorted ascending by `(price, ts)` for a Buy taker and by
`(-price, ts)` for a Sell taker, and that sorted list is
`askOrd`/`bidOrd`-ordered — so equal-priced makers are consumed
earliest-`ts` first and better-priced marketable makers before
worse-priced ones regardless of `ts`. -/
theorem claim_price_time_priority (b : Book) (o : Order) :
    (o.side = Side.Buy →
      ((b.submit o).1.map (fun t => t.2.1)) <+: ((sortAsks b.asks).map Order.id) ∧
      (sortAsks b.asks).Pairwise askOrd) ∧
    (o.side = Side.Sell →
      ((b.submit o).1.map (fun t => t.2.1)) <+: ((sortBids b.bids).map Order.id) ∧
      (sortBids b.bids).Pairwise bidOrd) := by
  constructor
  · intro h
    rw [submit_buy_eq b o h]
    exact ⟨matchList_consumed_in_order buyCond o (sortAsks b.asks), sortAsks_sorted b.asks⟩
  · intro h
    rw [submit_sell_eq b o h]
    exact ⟨matchList_consumed_in_order sellCond o (sortBids b.bids), sortBids_sorted b.bids⟩

theorem claim_price_time_priority_witness :
    ((((Book.new.submit ⟨1, Side.Sell, 100, 5, 1⟩).2.submit ⟨2, Side.Sell, 99, 5, 2⟩).2.submit
        ⟨3, Side.Buy, 100, 7, 3⟩).1.map (fun t => t.2.1)) <+:
      ((sortAsks ((Book.new.submit ⟨1, Side.Sell, 100, 5, 1⟩).2.submit
        ⟨2, Side.Sell, 99, 5, 2⟩).2.asks).map Order.id) ∧
    (sortAsks ((Book.new.submit ⟨1, Side.Sell, 100, 5, 1⟩).2.submit
      ⟨2, Side.Sell, 99, 5, 2⟩).2.asks).Pairwise askOrd :=
  (claim_price_time_priority _ _).1 rfl

/-- C3 fails as stated: a taker with negative quantity produces no
trades, and the empty sum `0` exceeds the taker's original `qty`. -/
theorem claim_qty_conservation_counterexample :
    ¬(((Book.new.submit ⟨1, Side.Buy, 100, -1, 1⟩).1.map (fun t => t.2.2)).sum ≤
      (⟨1, Side.Buy, 100, -1, 1⟩ : Order).qty) := by
  decide

/-- C3 (amended): for any reachable book, the sum of the filled
quantities of one `submit` call never exceeds `max(taker.qty, 0)` — in
particular it never exceeds the taker's original quantity whenever that
quantity is nonnegative — and every returned trade has positive filled
quantity. -/
theorem claim_qty_conservation (b : Book) (o : Order) (hb : Reachable b) :
    (((b.submit o).1.map (fun t => t.2.2)).sum ≤ max o.qty 0) ∧
    ∀ t ∈ (b.submit o).1, 0 < t.2.2 := by
  have hpos := (reachable_inv b hb).1
  cases hside : o.side
  case Buy =>
    rw [submit_buy_eq b o hside]
    exact ⟨matchList_sum_fills_le buyCond o (sortAsks b.asks),
      matchList_fills_pos buyCond o (sortAsks b.asks)
        (fun m hm => hpos.2 m ((sortAsks_perm b.asks).mem_iff.mp hm))⟩
  case Sell =>
    rw [submit_sell_eq b o hside]
    exact ⟨matchList_sum_fills_le sellCond o (sortBids b.bids),
      matchList_fills_pos sellCond o (sortBids b.bids)
        (fun m hm => hpos.1 m ((sortBids_perm b.bids).mem_iff.mp hm))⟩

theorem claim_qty_conservation_witness :
    ((((Book.new.submit ⟨1, Side.Buy, 100, 5, 1⟩).2.submit
      ⟨2, Side.Sell, 100, 3, 2⟩).1.map (fun t => t.2.2)).sum ≤ max (3 : Int) 0) ∧
    (0 : Int) < 3 :=
  ⟨(claim_qty_conservation (Book.new.submit ⟨1, Side.Buy, 100, 5, 1⟩).2
      ⟨2, Side.Sell, 100, 3, 2⟩ (Reachable.step _ _ Reachable.empty)).1,
    (claim_qty_conservation (Book.new.submit ⟨1, Side.Buy, 100, 5, 1⟩).2
      ⟨2, Side.Sell, 100, 3, 2⟩ (Reachable.step _ _ Reachable.empty)).2 (2, 1, 3) (by decide)⟩

/-- C4: `depth` (a pure function of the book in this embedding, so it
mutates nothing) returns bid levels sorted by descending and ask levels
by ascending price; each level's quantity is the summed remaining
quantity of all resting orders at exactly that price; every level's
price is the price of some resting order (so no empty price appears)
and every resting order's price has a level (equal prices merged, since
level prices are strictly ordered hence distinct); and each side's
levels sum to that side's total resting quantity. -/
theorem claim_depth_aggregation (b : Book) :
    (b.depth).1.Pairwise (fun x y => y.1 < x.1) ∧
    (b.depth).2.Pairwise (fun x y => x.1 < y.1) ∧
    (∀ pq ∈ (b.depth).1, pq.2 = sideQtyAt b.bids pq.1 ∧ ∃ r ∈ b.bids, r.price = pq.1) ∧
    (∀ pq ∈ (b.depth).2, pq.2 = sideQtyAt b.asks pq.1 ∧ ∃ r ∈ b.asks, r.price = pq.1) ∧
    (∀ r ∈ b.bids, ∃ pq ∈ (b.depth).1, pq.1 = r.price) ∧
    (∀ r ∈ b.asks, ∃ pq ∈ (b.depth).2, pq.1 = r.price) ∧
    ((b.depth).1.map (fun e => e.2)).sum = (b.bids.map (fun r => r.qty)).sum ∧
    ((b.depth).2.map (fun e => e.2)).sum = (b.asks.map (fun r => r.qty)).sum := by
  unfold Book.depth
  refine ⟨?_, sideLevels_pairwise b.asks, ?_, ?_, ?_, ?_, ?_, sideLevels_sum b.asks⟩
  · rw [List.pairwise_reverse]
    exact sideLevels_pairwise b.bids
  · intro pq hpq
    rw [List.mem_reverse] at hpq
    obtain ⟨p, qv⟩ := pq
    refine ⟨sideLevels_val b.bids p qv hpq, ?_⟩
    have hk : p ∈ b.bids.map Order.price := (sideLevels_keys b.bids p).mp
      (List.mem_map.mpr ⟨(p, qv), hpq, rfl⟩)
    obtain ⟨r, hr, hrp⟩ := List.mem_map.mp hk
    exact ⟨r, hr, hrp⟩
  · intro pq hpq
    obtain ⟨p, qv⟩ := pq
    refine ⟨sideLevels_val b.asks p qv hpq, ?_⟩
    have hk : p ∈ b.asks.map Order.price := (sideLevels_keys b.asks p).mp
      (List.mem_map.mpr ⟨(p, qv), hpq, rfl⟩)
    obtain ⟨r, hr, hrp⟩ := List.mem_map.mp hk
    exact ⟨r, hr, hrp⟩
  · intro r hr
    have hk : r.price ∈ (sideLevels b.bids).map Prod.fst :=
      (sideLevels_keys b.bids r.price).mpr (List.mem_map.mpr ⟨r, hr, rfl⟩)
    obtain ⟨pq, hpq, hpq1⟩ := List.mem_map.mp hk
    exact ⟨pq, List.mem_reverse.mpr hpq, hpq1⟩
  · intro r hr
    have hk : r.price ∈ (sideLevels b.asks).map Prod.fst :=
      (sideLevels_keys b.asks r.price).mpr (List.mem_map.mpr ⟨r, hr, rfl⟩)
    obtain ⟨pq, hpq, hpq1⟩ := List.mem_map.mp hk
    exact ⟨pq, hpq, hpq1⟩
  · rw [List.map_reverse, List.sum_reverse]
    exact sideLevels_sum b.bids

/-- C5: in every reachable book state every resting order has positive
quantity — a fully consumed maker is removed within the very `submit`
call that consumed it, never left at zero — and consequently every
`depth` level also shows positive quantity, so a removed maker
contributes to no subsequent `depth` result. -/
theorem claim_full_fill_removal (b : Book) (h : Reachable b) :
    (∀ r ∈ b.bids, 0 < r.qty) ∧ (∀ r ∈ b.asks, 0 < r.qty) ∧
    (∀ pq ∈ (b.depth).1, 0 < pq.2) ∧ (∀ pq ∈ (b.depth).2, 0 < pq.2) := by
  have hpos := (reachable_inv b h).1
  refine ⟨hpos.1, hpos.2, ?_, ?_⟩
  · intro pq hpq
    rw [Book.depth, List.mem_reverse] at hpq
    obtain ⟨p, qv⟩ := pq
    rw [sideLevels_val b.bids p qv hpq]
    apply sideQtyAt_pos b.bids hpos.1
    have hk : p ∈ b.bids.map Order.price := (sideLevels_keys b.bids p).mp
      (List.mem_map.mpr ⟨(p, qv), hpq, rfl⟩)
    obtain ⟨r, hr, hrp⟩ := List.mem_map.mp hk
    exact ⟨r, hr, hrp⟩
  · intro pq hpq
    rw [Book.depth] at hpq
    obtain ⟨p, qv⟩ := pq
    rw [sideLevels_val b.asks p qv hpq]
    apply sideQtyAt_pos b.asks hpos.2
    have hk : p ∈ b.asks.map Order.price := (sideLevels_keys b.asks p).mp
      (List.mem_map.mpr ⟨(p, qv), hpq, rfl⟩)
    obtain ⟨r, hr, hrp⟩ := List.mem_map.mp hk
    exact ⟨r, hr, hrp⟩

theorem claim_full_fill_removal_witness : (0 : Int) < 5 :=
  (claim_full_fill_removal (Book.new.submit ⟨1, Side.Buy, 100, 5, 1⟩).2
    (Reachable.step _ _ Reachable.empty)).1 ⟨1, Side.Buy, 100, 5, 1⟩ (by decide)

/-- C6 fails as stated: a taker with `qty = 0` submitted against an
empty opposite side yields an empty trade list but is NOT inserted —
the book stays empty, refuting "inserts the taker unmatched in full"
for every taker. -/
theorem claim_remainder_insertion_counterexample :
    (Book.new.submit ⟨1, Side.Buy, 100, 0, 1⟩).1 = [] ∧
    (Book.new.submit ⟨1, Side.Buy, 100, 0, 1⟩).2.bids = [] ∧
    (Book.new.submit ⟨1, Side.Buy, 100, 0, 1⟩).2.bids ≠ [⟨1, Side.Buy, 100, 0, 1⟩] := by
  decide

/-- C6 (amended): if after matching the taker retains `qty > 0` it is
inserted (appended) as a new resting order on its own side carrying its
original `id`, `side`, `price`, `ts` and its remaining quantity; and a
taker with positive quantity submitted against an empty opposite side
trades nothing and is inserted unmatched in full (a taker with
nonpositive quantity is not inserted). -/
theorem claim_remainder_insertion (b : Book) (o : Order) :
    (o.side = Side.Buy →
      (0 < o.qty - ((b.submit o).1.map (fun t => t.2.2)).sum →
        (b.submit o).2.bids =
          b.bids ++ [{ o with qty := o.qty - ((b.submit o).1.map (fun t => t.2.2)).sum }]) ∧
      (b.asks = [] → (b.submit o).1 = [] ∧ (b.submit o).2.asks = [] ∧
        (0 < o.qty → (b.submit o).2.bids = b.bids ++ [o]))) ∧
    (o.side = Side.Sell →
      (0 < o.qty - ((b.submit o).1.map (fun t => t.2.2)).sum →
        (b.submit o).2.asks =
          b.asks ++ [{ o with qty := o.qty - ((b.submit o).1.map (fun t => t.2.2)).sum }]) ∧
      (b.bids = [] → (b.submit o).1 = [] ∧ (b.submit o).2.bids = [] ∧
        (0 < o.qty → (b.submit o).2.asks = b.asks ++ [o]))) := by
  constructor
  · intro hside
    rw [submit_buy_eq b o hside]
    constructor
    · intro hrem
      have ht := matchList_taker buyCond o (sortAsks b.asks)
      rw [if_pos (by rw [ht]; exact hrem)]
      rw [ht]
    · intro hasks
      have hnil : sortAsks b.asks = [] := by rw [hasks]; rfl
      rw [hnil]
      refine ⟨rfl, rfl, ?_⟩
      intro hq
      simp only [matchList]
      rw [if_pos hq]
  · intro hside
    rw [submit_sell_eq b o hside]
    constructor
    · intro hrem
      have ht := matchList_taker sellCond o (sortBids b.bids)
      rw [if_pos (by rw [ht]; exact hrem)]
      rw [ht]
    · intro hbids
      have hnil : sortBids b.bids = [] := by rw [hbids]; rfl
      rw [hnil]
      refine ⟨rfl, rfl, ?_⟩
      intro hq
      simp only [matchList]
      rw [if_pos hq]

theorem claim_remainder_insertion_witness :
    ((Book.new.submit ⟨1, Side.Sell, 100, 3, 1⟩).2.submit ⟨2, Side.Buy, 100, 5, 2⟩).2.bids =
      (Book.new.submit ⟨1, Side.Sell, 100, 3, 1⟩).2.bids ++ [⟨2, Side.Buy, 100, 2, 2⟩] := by
  have h := ((claim_remainder_insertion (Book.new.submit ⟨1, Side.Sell, 100, 3, 1⟩).2
    ⟨2, Side.Buy, 100, 5, 2⟩).1 rfl).1 (by decide)
  exact h.trans (by decide)

/-- C7 fails as stated: not every `i64`-overflow branch is unreachable.
A bid resting at price `i64::MIN` is reachable from the empty book, and
a subsequent Sell-side `submit` sorts the bids by the key
`(-x.price, x.ts)` whose negation of `i64::MIN` leaves the `i64` range
(a panic in a checked build). -/
theorem claim_total_no_panic_counterexample :
    Reachable ((Book.new.submit ⟨1, Side.Buy, i64Min, 1, 1⟩).2.submit
      ⟨2, Side.Buy, i64Min, 1, 2⟩).2 ∧
    ((Book.new.submit ⟨1, Side.Buy, i64Min, 1, 1⟩).2.submit
      ⟨2, Side.Buy, i64Min, 1, 2⟩).2.sellKeyOverflow = true :=
  ⟨Reachable.step _ _ (Reachable.step _ _ Reachable.empty), by decide⟩

/-- C7 (amended): `submit` and `depth` accept every order and book state
unconditionally (the embedded functions are total, and all vector
indexing is bounds-checked by construction), but the `i64`-overflow
branches are reachable rather than unreachable — see the
counterexample; only when every resting bid price is strictly above
`i64::MIN` does the Sell-side sort-key negation stay inside
`[i64::MIN, i64::MAX]`. -/
theorem claim_total_no_panic (b : Book)
    (h : ∀ r ∈ b.bids, i64Min < r.price ∧ r.price ≤ i64Max) :
    b.sellKeyOverflow = false ∧
    ∀ r ∈ b.bids, i64Min ≤ -r.price ∧ -r.price ≤ i64Max := by
  constructor
  · unfold Book.sellKeyOverflow
    rw [List.any_eq_false]
    intro r hr
    have hrange := h r hr
    unfold i64Min i64Max at *
    simp only [decide_eq_true_eq]
    omega
  · intro r hr
    have hrange := h r hr
    unfold i64Min i64Max at *
    omega

theorem claim_total_no_panic_witness :
    (Book.new.submit ⟨1, Side.Buy, 100, 5, 1⟩).2.sellKeyOverflow = false ∧
    (i64Min ≤ -(100 : Int) ∧ -(100 : Int) ≤ i64Max) :=
  ⟨(claim_total_no_panic (Book.new.submit ⟨1, Side.Buy, 100, 5, 1⟩).2 (by decide)).1,
    (claim_total_no_panic (Book.new.submit ⟨1, Side.Buy, 100, 5, 1⟩).2 (by decide)).2
      ⟨1, Side.Buy, 100, 5, 1⟩ (by decide)⟩

/-- C8: the three-order scenario.  Buy(1,100,5,1), Buy(2,101,5,2), then
Sell(3,99,8,3): the Sell matches id 2 first (better price) fully for 5,
then id 1 partially for 3; trades `[(3,2,5),(3,1,3)]`, and `depth()`
afterwards shows bids `[(100,2)]` and no asks. -/
theorem claim_scenario_three_orders :
    (((Book.new.submit ⟨1, Side.Buy, 100, 5, 1⟩).2.submit ⟨2, Side.Buy, 101, 5, 2⟩).2.submit
      ⟨3, Side.Sell, 99, 8, 3⟩).1 = [(3, 2, 5), (3, 1, 3)] ∧
    (((Book.new.submit ⟨1, Side.Buy, 100, 5, 1⟩).2.submit ⟨2, Side.Buy, 101, 5, 2⟩).2.submit
      ⟨3, Side.Sell, 99, 8, 3⟩).2.depth = ([(100, 2)], []) := by
  decide

/-- C9: a taker with `qty ≤ 0` trades nothing and is not inserted; the
multiset of resting orders on each side is unchanged (the opposite side
is merely re-sorted in place by the `submit` call). -/
theorem claim_nonpositive_taker_noop (b : Book) (o : Order) (h : o.qty ≤ 0) :
    (b.submit o).1 = [] ∧ List.Perm (b.submit o).2.bids b.bids ∧
    List.Perm (b.submit o).2.asks b.asks := by
  cases hside : o.side
  case Buy =>
    rw [submit_buy_eq b o hside]
    rw [matchList_nonpos buyCond o (sortAsks b.asks) h]
    rw [if_neg (by simpa using not_lt.mpr h)]
    exact ⟨rfl, List.Perm.refl _, sortAsks_perm b.asks⟩
  case Sell =>
    rw [submit_sell_eq b o hside]
    rw [matchList_nonpos sellCond o (sortBids b.bids) h]
    rw [if_neg (by simpa using not_lt.mpr h)]
    exact ⟨rfl, sortBids_perm b.bids, List.Perm.refl _⟩

theorem claim_nonpositive_taker_noop_witness :
    ((Book.new.submit ⟨1, Side.Buy, 100, 5, 1⟩).2.submit ⟨2, Side.Sell, 90, 0, 2⟩).1 = [] ∧
    List.Perm ((Book.new.submit ⟨1, Side.Buy, 100, 5, 1⟩).2.submit
      ⟨2, Side.Sell, 90, 0, 2⟩).2.bids (Book.new.submit ⟨1, Side.Buy, 100, 5, 1⟩).2.bids ∧
    List.Perm ((Book.new.submit ⟨1, Side.Buy, 100, 5, 1⟩).2.submit
      ⟨2, Side.Sell, 90, 0, 2⟩).2.asks (Book.new.submit ⟨1, Side.Buy, 100, 5, 1⟩).2.asks :=
  claim_nonpositive_taker_noop (Book.new.submit ⟨1, Side.Buy, 100, 5, 1⟩).2
    ⟨2, Side.Sell, 90, 0, 2⟩ (by decide)

/-- C10: in every reachable book state, every order resting on the bid
side has `side = Buy` and every order resting on the ask side has
`side = Sell` (so every `submit` call preserves this). -/
theorem claim_sides_invariant (b : Book) (h : Reachable b) :
    (∀ r ∈ b.bids, r.side = Side.Buy) ∧ (∀ r ∈ b.asks, r.side = Side.Sell) :=
  (reachable_inv b h).2.2

theorem claim_sides_invariant_witness : (⟨1, Side.Buy, 100, 5, 1⟩ : Order).side = Side.Buy :=
  (claim_sides_invariant (Book.new.submit ⟨1, Side.Buy, 100, 5, 1⟩).2
    (Reachable.step _ _ Reachable.empty)).1 ⟨1, Side.Buy, 100, 5, 1⟩ (by decide)

end HlExec
